import Mathlib

/-!
Verification of the Symple Slicer placement engine (`Stage`, `SettingsPanel`,
`PrinterRepresentation`) against its natural-language specification.

The JavaScript code is shallowly embedded over exact rationals: THREE.js
`Vector3`, `Quaternion` and (affine) `Matrix4` values become `Vec3`, `Quat`
and `Aff` records with the library's arithmetic written out, and each
placement operation of the source becomes a Lean function on those records.
Floating-point rounding is idealized away (the spec's "within tolerance"
becomes exact equality over `ℚ`).
-/

namespace Slicer

/-- Embedding of `THREE.Vector3`: a 3-component vector with exact rational
coordinates. -/
@[ext]
structure Vec3 where
  x : ℚ
  y : ℚ
  z : ℚ
deriving DecidableEq, Repr

/-- Componentwise sum, `THREE.Vector3.add`. -/
def Vec3.add (a b : Vec3) : Vec3 := ⟨a.x + b.x, a.y + b.y, a.z + b.z⟩

/-- Componentwise negation. -/
def Vec3.neg (a : Vec3) : Vec3 := ⟨-a.x, -a.y, -a.z⟩

/-- Scalar multiple, `THREE.Vector3.multiplyScalar`. -/
def Vec3.smul (c : ℚ) (a : Vec3) : Vec3 := ⟨c * a.x, c * a.y, c * a.z⟩

/-- Dot product, `THREE.Vector3.dot`. -/
def Vec3.dot (a b : Vec3) : ℚ := a.x * b.x + a.y * b.y + a.z * b.z

/-- Cross product, `THREE.Vector3.cross`. -/
def Vec3.cross (a b : Vec3) : Vec3 :=
  ⟨a.y * b.z - a.z * b.y, a.z * b.x - a.x * b.z, a.x * b.y - a.y * b.x⟩

/-- Squared length, `THREE.Vector3.lengthSq`. -/
def Vec3.normSq (a : Vec3) : ℚ := a.dot a

/-- Embedding of `THREE.Quaternion` (components w, x, y, z). -/
@[ext]
structure Quat where
  w : ℚ
  x : ℚ
  y : ℚ
  z : ℚ
deriving DecidableEq, Repr

/-- Hamilton product, `THREE.Quaternion.multiplyQuaternions(p, q)`;
`p.multiply(q)` is `p := p * q` (post-multiplication). -/
def Quat.mul (p q : Quat) : Quat :=
  ⟨p.w * q.w - p.x * q.x - p.y * q.y - p.z * q.z,
   p.x * q.w + p.w * q.x + p.y * q.z - p.z * q.y,
   p.y * q.w + p.w * q.y + p.z * q.x - p.x * q.z,
   p.z * q.w + p.w * q.z + p.x * q.y - p.y * q.x⟩

/-- Quaternion conjugate.  In the THREE.js revision used by the program,
`Quaternion.inverse()` is documented to assume unit length and returns the
conjugate, which is what `layObjectFlat` step 5 invokes. -/
def Quat.conj (q : Quat) : Quat := ⟨q.w, -q.x, -q.y, -q.z⟩

/-- Squared norm, `THREE.Quaternion.lengthSq`. -/
def Quat.normSq (q : Quat) : ℚ := q.w * q.w + q.x * q.x + q.y * q.y + q.z * q.z

/-- A vector viewed as a pure quaternion. -/
def Vec3.toQuat (v : Vec3) : Quat := ⟨0, v.x, v.y, v.z⟩

/-- The vector part of a quaternion. -/
def Quat.vec (q : Quat) : Vec3 := ⟨q.x, q.y, q.z⟩

/-- Embedding of `THREE.Vector3.applyQuaternion(q)`: the vector part of
`q * v * conj q`, which is exactly the component formula THREE.js computes
(no normalization is performed by the library either). -/
def Vec3.applyQuaternion (v : Vec3) (q : Quat) : Vec3 :=
  ((q.mul v.toQuat).mul q.conj).vec

/-- The unnormalized shortest-arc quaternion of the generic branch of
`THREE.Quaternion.setFromUnitVectors`: real part `1 + a·b`, vector part
`a × b`.  The library divides this by its length before use; a positive
scalar factor does not change the rotation it represents, and keeping the
raw value keeps every component rational. -/
def arcGen (a b : Vec3) : Quat :=
  ⟨1 + a.dot b, (a.cross b).x, (a.cross b).y, (a.cross b).z⟩

/-- Embedding of `THREE.Quaternion.setFromUnitVectors(vFrom, vTo)` before
its final normalization.  The library's branch condition
`r = vFrom·vTo + 1 < Number.EPSILON` is idealized to `1 + vFrom·vTo ≤ 0`
(for unit vectors `r` is nonnegative and vanishes exactly at antipodal
inputs); the degenerate branch picks a perpendicular 180° axis exactly as
the library does. -/
def setFromUnitVectorsRaw (vFrom vTo : Vec3) : Quat :=
  if 1 + vFrom.dot vTo ≤ 0 then
    if |vFrom.x| > |vFrom.z| then ⟨0, -vFrom.y, vFrom.x, 0⟩
    else ⟨0, 0, -vFrom.z, vFrom.y⟩
  else arcGen vFrom vTo

/-- Embedding of a 3×3 matrix (the rotation/scale block of an affine
`THREE.Matrix4`), row major. -/
@[ext]
structure Mat3 where
  m11 : ℚ
  m12 : ℚ
  m13 : ℚ
  m21 : ℚ
  m22 : ℚ
  m23 : ℚ
  m31 : ℚ
  m32 : ℚ
  m33 : ℚ
deriving DecidableEq, Repr

/-- Matrix-vector product. -/
def Mat3.mulVec (m : Mat3) (v : Vec3) : Vec3 :=
  ⟨m.m11 * v.x + m.m12 * v.y + m.m13 * v.z,
   m.m21 * v.x + m.m22 * v.y + m.m23 * v.z,
   m.m31 * v.x + m.m32 * v.y + m.m33 * v.z⟩

/-- Matrix product. -/
def Mat3.mul (a b : Mat3) : Mat3 :=
  ⟨a.m11 * b.m11 + a.m12 * b.m21 + a.m13 * b.m31,
   a.m11 * b.m12 + a.m12 * b.m22 + a.m13 * b.m32,
   a.m11 * b.m13 + a.m12 * b.m23 + a.m13 * b.m33,
   a.m21 * b.m11 + a.m22 * b.m21 + a.m23 * b.m31,
   a.m21 * b.m12 + a.m22 * b.m22 + a.m23 * b.m32,
   a.m21 * b.m13 + a.m22 * b.m23 + a.m23 * b.m33,
   a.m31 * b.m11 + a.m32 * b.m21 + a.m33 * b.m31,
   a.m31 * b.m12 + a.m32 * b.m22 + a.m33 * b.m32,
   a.m31 * b.m13 + a.m32 * b.m23 + a.m33 * b.m33⟩

/-- Identity matrix. -/
def Mat3.one : Mat3 := ⟨1, 0, 0, 0, 1, 0, 0, 0, 1⟩

/-- Determinant. -/
def Mat3.det (m : Mat3) : ℚ :=
  m.m11 * (m.m22 * m.m33 - m.m23 * m.m32)
  - m.m12 * (m.m21 * m.m33 - m.m23 * m.m31)
  + m.m13 * (m.m21 * m.m32 - m.m22 * m.m31)

/-- Matrix inverse by cofactors, the 3×3 content of
`THREE.Matrix4.getInverse` on an affine matrix. -/
def Mat3.inv (m : Mat3) : Mat3 :=
  let d := m.det
  ⟨(m.m22 * m.m33 - m.m23 * m.m32) / d,
   (m.m13 * m.m32 - m.m12 * m.m33) / d,
   (m.m12 * m.m23 - m.m13 * m.m22) / d,
   (m.m23 * m.m31 - m.m21 * m.m33) / d,
   (m.m11 * m.m33 - m.m13 * m.m31) / d,
   (m.m13 * m.m21 - m.m11 * m.m23) / d,
   (m.m21 * m.m32 - m.m22 * m.m31) / d,
   (m.m12 * m.m31 - m.m11 * m.m32) / d,
   (m.m11 * m.m22 - m.m12 * m.m21) / d⟩

/-- Scale the three columns of a matrix by the components of `s`; this is
how `THREE.Matrix4.compose` merges the scale into the rotation block. -/
def Mat3.scaleColumns (m : Mat3) (s : Vec3) : Mat3 :=
  ⟨m.m11 * s.x, m.m12 * s.y, m.m13 * s.z,
   m.m21 * s.x, m.m22 * s.y, m.m23 * s.z,
   m.m31 * s.x, m.m32 * s.y, m.m33 * s.z⟩

/-- An affine transform: the `THREE.Matrix4` values appearing in the scene
graph all have last row `0 0 0 1`, so they are a linear block plus a
translation. -/
@[ext]
structure Aff where
  linear : Mat3
  trans : Vec3
deriving DecidableEq, Repr

/-- Apply an affine transform to a point. -/
def Aff.apply (t : Aff) (v : Vec3) : Vec3 := (t.linear.mulVec v).add t.trans

/-- Composition `t ∘ u` (matrix product `t * u`). -/
def Aff.comp (t u : Aff) : Aff :=
  ⟨t.linear.mul u.linear, (t.linear.mulVec u.trans).add t.trans⟩

/-- Inverse of an affine transform, `THREE.Matrix4.getInverse` restricted
to the affine case. -/
def Aff.inv (t : Aff) : Aff :=
  ⟨t.linear.inv, (t.linear.inv.mulVec t.trans).neg⟩

/-- Rotation matrix of a quaternion, the formula of
`THREE.Matrix4.makeRotationFromQuaternion` (which assumes a unit
quaternion). -/
def quatRotationMatrix (q : Quat) : Mat3 :=
  ⟨1 - 2 * (q.y * q.y + q.z * q.z), 2 * (q.x * q.y - q.w * q.z), 2 * (q.x * q.z + q.w * q.y),
   2 * (q.x * q.y + q.w * q.z), 1 - 2 * (q.x * q.x + q.z * q.z), 2 * (q.y * q.z - q.w * q.x),
   2 * (q.x * q.z - q.w * q.y), 2 * (q.y * q.z + q.w * q.x), 1 - 2 * (q.x * q.x + q.y * q.y)⟩

/-- Embedding of `THREE.Matrix4.compose(position, quaternion, scale)`:
rotation block with columns scaled, translation part the position. -/
def composeMatrix (position : Vec3) (q : Quat) (scale : Vec3) : Aff :=
  ⟨(quatRotationMatrix q).scaleColumns scale, position⟩

/-- A hull face as stored in a THREE `Geometry`: three vertex indices and
the face's local outward normal (`THREE.Face3`). -/
structure Face3 where
  a : Nat
  b : Nat
  c : Nat
  normal : Vec3
deriving DecidableEq, Repr

/-- Embedding of a `PrintableObject` as the placement engine sees it: the
mesh vertices (`geometry.vertices`), the precomputed convex hull vertices
(`hull.vertices`) and faces (`hull.faces`), and the mutable pose
(`position`, `quaternion`, `scale`). -/
structure PrintObj where
  geometry : List Vec3
  hull : List Vec3
  hullFaces : List Face3
  position : Vec3
  quaternion : Quat
  scale : Vec3
deriving DecidableEq, Repr

/-- The object's local matrix (`obj.matrix`), composed from its pose as
THREE.js does. -/
def localAff (o : PrintObj) : Aff := composeMatrix o.position o.quaternion o.scale

/-- Embedding of `Stage.localToBed(child, vector)`:
`bedRelative.worldToLocal(child.localToWorld(vector))`.  The object is a
direct child of `bedRelative`, so its world matrix is the bed's world
matrix `bed` composed with the object's local matrix. -/
def localToBed (bed : Aff) (o : PrintObj) (v : Vec3) : Vec3 :=
  (Aff.inv bed).apply ((bed.comp (localAff o)).apply v)

/-- Bed-space height of a hull vertex: the vertical (bed Z) coordinate
`localToBed` produces, the quantity `findLowestPoint` compares. -/
def bedZ (bed : Aff) (o : PrintObj) (v : Vec3) : ℚ := (localToBed bed o v).z

/-- The record `findLowestPoint` accumulates: vertex index, the vertex,
and its bed-space height (`{object, vertex, index, z}` in the source; the
constant `object` field is dropped). -/
structure LowPoint where
  index : Nat
  vertex : Vec3
  z : ℚ
deriving DecidableEq, Repr

/-- The loop body of `findLowestPoint`'s `forEach` once the accumulator is
initialized: `i` is the index of the head of the remaining vertex list,
and a vertex replaces the accumulator exactly when its height is strictly
lower (`vector.z < lowestPoint.z`), so ties keep the earlier index. -/
def flpGo (f : Vec3 → ℚ) : List Vec3 → Nat → LowPoint → LowPoint
  | [], _, lp => lp
  | v :: vs, i, lp => flpGo f vs (i + 1) (if f v < lp.z then ⟨i, v, f v⟩ else lp)

/-- Embedding of `Stage.findLowestPoint` over an object's convex hull:
scans `hull.vertices` (never `geometry.vertices`), mapping each vertex to
bed space; the first vertex initializes the accumulator (the
`if (!lowestPoint)` branch), the rest run the comparison loop.  Returns
`none` on an empty hull, where the JavaScript would fault reading
`lowestPoint.z`. -/
def findLowestPoint (bed : Aff) (o : PrintObj) : Option LowPoint :=
  match o.hull with
  | [] => none
  | v :: vs => some (flpGo (fun u => bedZ bed o u) vs 1 ⟨0, v, bedZ bed o v⟩)

/-- Embedding of `Stage.dropObjectToFloor(obj)`: find the lowest hull
point and subtract its bed height from the object's `position.z` (the
object's position is expressed in the bed frame, its parent's frame). -/
def dropObjectToFloor (bed : Aff) (o : PrintObj) : Option PrintObj :=
  (findLowestPoint bed o).map fun lp =>
    { o with position := ⟨o.position.x, o.position.y, o.position.z - lp.z⟩ }

/-- The world "down" vector of `layObjectFlat`
(`new THREE.Vector3(0, -1, 0)`; world Y is up in the viewport). -/
def downVector : Vec3 := ⟨0, -1, 0⟩

/-- The candidate record `layObjectFlat` builds for each hull face sharing
the lowest vertex.  The source stores `angle = Math.acos(dot)` where `dot`
is the world-rotated face normal dotted with the down vector; since
`Math.acos` is strictly decreasing, ordering by ascending angle is
ordering by descending dot, and the embedding stores the rational `dot`
(the angle itself is irrational). -/
structure LayFlatCandidate where
  dotDown : ℚ
  normal : Vec3
deriving DecidableEq, Repr

/-- The face-incidence test of `layObjectFlat` step 3:
`pivot.index == face.a || pivot.index == face.b || pivot.index == face.c`. -/
def faceTouchesPivot (pivotIndex : Nat) (f : Face3) : Bool :=
  pivotIndex == f.a || pivotIndex == f.b || pivotIndex == f.c

/-- The candidate list of `layObjectFlat` step 3: hull faces incident to
the lowest vertex, each with its local normal rotated into world space by
the object's (decomposed) world quaternion `q` and dotted with the down
vector. -/
def layFlatCandidates (q : Quat) (pivotIndex : Nat) (faces : List Face3) :
    List LayFlatCandidate :=
  (faces.filter fun f => faceTouchesPivot pivotIndex f).map fun f =>
    ⟨(f.normal.applyQuaternion q).dot downVector, f.normal⟩

/-- The comparison loop behind step 4 of `layObjectFlat`: a later
candidate replaces the current best exactly when its angle is strictly
smaller, i.e. its dot with the down vector strictly larger. -/
def selGo (c : LayFlatCandidate) (cs : List LayFlatCandidate) : LayFlatCandidate :=
  cs.foldl (fun best d => if best.dotDown < d.dotDown then d else best) c

/-- Step 4 of `layObjectFlat`: stable-sort the candidates by ascending
angle (`candidates.sort((a, b) => a.angle - b.angle)`) and take
`candidates[0]`.  The head of a stable ascending sort by `acos(dot)` is
the first candidate whose `dot` is maximal, which the fold computes. -/
def selectCandidate : List LayFlatCandidate → Option LayFlatCandidate
  | [] => none
  | c :: cs => some (selGo c cs)

/-- Step 5 of `layObjectFlat`: the world down vector carried into object
coordinates, `downVector.applyQuaternion(quaternion.inverse())` where
`quaternion` holds the object's world quaternion and `inverse` is the
conjugate. -/
def layFlatLocalDown (q : Quat) : Vec3 := downVector.applyQuaternion q.conj

/-- Step 6 of `layObjectFlat`: the (unnormalized) shortest-arc rotation
from the chosen local face normal to the local down vector. -/
def layFlatRotation (q : Quat) (chosenNormal : Vec3) : Quat :=
  setFromUnitVectorsRaw chosenNormal (layFlatLocalDown q)

/-- The quaternion `layObjectFlat` leaves on the object:
`obj.quaternion.multiply(quaternion)`, post-multiplying the shortest-arc
rotation in the object's local frame.  `qBed` is the rotation of the bed
frame the object is parented under, so the decomposed world quaternion of
step 2 is `qBed * obj.quaternion` (the bed chain is rigid and the object
scale positive).  The library normalizes the arc quaternion first; the
embedding keeps the raw value, which differs by a positive scalar factor
and hence represents the same rotation. -/
def layFlatCodeUpdate (qBed : Quat) (o : PrintObj) (chosenNormal : Vec3) : Quat :=
  o.quaternion.mul (layFlatRotation (qBed.mul o.quaternion) chosenNormal)

/-- Modelled from the spec (§4.4 step 4), for the refinement claim about
`layObjectFlat`: the minimal (shortest-arc) rotation mapping the chosen
face's normal, carried to world space, onto the world down vector,
pre-multiplied onto the object's existing world orientation. -/
def layFlatSpecWorldOrientation (qWorld : Quat) (chosenNormal : Vec3) : Quat :=
  (setFromUnitVectorsRaw (chosenNormal.applyQuaternion qWorld) downVector).mul qWorld

/-- The `transform.premultiply(getInverse(bedRelative.matrixWorld))` value
of `Stage.getAllGeometry`, where `transform` is a clone of the object's
world matrix `bed ∘ local`. -/
def bakeTransform (bed : Aff) (o : PrintObj) : Aff :=
  Aff.comp (Aff.inv bed) (Aff.comp bed (localAff o))

/-- Embedding of `Stage.getAllGeometry`: for each placed object, clone its
geometry and apply the baked transform to the clone; the stored objects
are untouched (all mutation happens on the clones), so the state component
returned is the input object list itself. -/
def getAllGeometry (bed : Aff) (objs : List PrintObj) :
    List (List Vec3) × List PrintObj :=
  (objs.map fun o => o.geometry.map fun v => (bakeTransform bed o).apply v, objs)

/-- The bounding box `SettingsPanel.setPrintBounds` receives from the
slicer. -/
structure Bounds3 where
  bmin : Vec3
  bmax : Vec3
deriving DecidableEq, Repr

/-- The machine dimensions `setPrintBounds` reads from the
`machine_width` / `machine_depth` / `machine_height` fields. -/
structure MachineLimits where
  width : ℚ
  depth : ℚ
  height : ℚ
deriving DecidableEq, Repr

/-- Embedding of the condition of `SettingsPanel.setPrintBounds`: the
warning element is shown exactly when this is `true`.  The source's last
comparison reads `bounds.max.y > $('#machine_height').val()` — the `y`
component again, not `z`. -/
def setPrintBoundsWarning (b : Bounds3) (m : MachineLimits) : Bool :=
  decide (b.bmin.x < 0) || decide (b.bmin.y < 0) || decide (b.bmin.z < 0) ||
  decide (b.bmax.x > m.width) || decide (b.bmax.y > m.depth) ||
  decide (b.bmax.y > m.height)

/-- Modelled from the spec ("detected by comparing final world bounds to
the print volume"): out of bounds means some minimum coordinate is below
zero or some maximum exceeds the corresponding volume dimension, with the
Z maximum compared against the height. -/
def outOfBoundsSpec (b : Bounds3) (m : MachineLimits) : Bool :=
  decide (b.bmin.x < 0) || decide (b.bmin.y < 0) || decide (b.bmin.z < 0) ||
  decide (b.bmax.x > m.width) || decide (b.bmax.y > m.depth) ||
  decide (b.bmax.z > m.height)

/-- The mirror axes of `SettingsPanel.onMirrorAxis`. -/
inductive MirrorAxis where
  | X
  | Y
  | Z
deriving DecidableEq, Repr

/-- Embedding of `SettingsPanel.onMirrorAxis(axis)` acting on the
selection's scale vector (`stage.selection.scale`): the chosen component
is multiplied by `-1`.  The subsequent `stage.onTransformEdit()` call only
re-drops and re-renders (spec §4.3: the drop translates along the bed's
vertical axis only) and never writes the scale. -/
def onMirrorAxis (axis : MirrorAxis) (scale : Vec3) : Vec3 :=
  match axis with
  | .X => { scale with x := scale.x * (-1) }
  | .Y => { scale with y := scale.y * (-1) }
  | .Z => { scale with z := scale.z * (-1) }

/-- The printer characteristics record handed to
`PrinterRepresentation`'s constructor. -/
structure PrinterConfig where
  circular : Bool
  origin_at_center : Bool
  x_width : ℚ
  y_depth : ℚ
  z_height : ℚ
deriving DecidableEq, Repr

/-- Result of the bed-geometry branch of the constructor. -/
inductive BedGeometry where
  | circleGeom (radius : ℚ) (segments : Nat)
  | planeGeom (w h : ℚ)
deriving DecidableEq, Repr

/-- Embedding of the bed-geometry branch of
`PrinterRepresentation.constructor`: the circular branch evaluates
`min(printer.x_width, printer.y_depth)` where `min` is an unbound
identifier (the library function is `Math.min`), so in JavaScript the
branch throws a `ReferenceError` and construction fails; the rectangular
branch builds the plane geometry. -/
def makeBedGeometry (p : PrinterConfig) : Except String BedGeometry :=
  if p.circular then Except.error "ReferenceError: min is not defined"
  else Except.ok (BedGeometry.planeGeom p.x_width p.y_depth)

/-- State of `Stage` relevant to the packing-run lifecycle: the placed
object ids, the selection, the `packer` variable (the id of the run it
holds, if any), the set of `CirclePacker` runs that have been constructed
and not yet destroyed, and a counter supplying fresh run ids. -/
structure StageState where
  objects : List Nat
  selection : List Nat
  packer : Option Nat
  liveRuns : List Nat
  nextRun : Nat
deriving DecidableEq, Repr

/-- The `Stage` right after construction: no objects, no selection, no
packer. -/
def initStage : StageState := ⟨[], [], none, [], 0⟩

/-- Embedding of `Stage.selectNone`: folds the selection group back and
empties the selection; it never touches `packer`. -/
def selectNoneSt (s : StageState) : StageState := { s with selection := [] }

/-- Embedding of the `packingFinished` closure inside
`arrangeObjectsOnPlatform`: `packer.destroy(); packer = null`. -/
def packingFinishedSt (s : StageState) : StageState :=
  match s.packer with
  | none => s
  | some r => { s with liveRuns := s.liveRuns.erase r, packer := none }

/-- Embedding of `Stage.arrangeObjectsOnPlatform`: if a packer run is in
flight it is destroyed first (`if(packer) packingFinished()`), then the
selection is cleared, then a fresh `CirclePacker` is constructed and
stored in `packer`. -/
def arrangeObjectsOnPlatformSt (s : StageState) : StageState :=
  let s1 := if s.packer.isSome then packingFinishedSt s else s
  let s2 := selectNoneSt s1
  { s2 with
    packer := some s2.nextRun
    liveRuns := s2.liveRuns ++ [s2.nextRun]
    nextRun := s2.nextRun + 1 }

/-- Embedding of `Stage.removeObjects`: `selectNone()` then the object
list is emptied; neither step touches `packer`. -/
def removeObjectsSt (s : StageState) : StageState :=
  let s1 := selectNoneSt s
  { s1 with objects := [] }

/-- Embedding of `Stage.addGeometry` as far as the packer lifecycle is
concerned: push the new object and call `arrangeObjectsOnPlatform`. -/
def addGeometrySt (s : StageState) (objId : Nat) : StageState :=
  arrangeObjectsOnPlatformSt { s with objects := s.objects ++ [objId] }

/-- The single-run invariant: the live `CirclePacker` runs are exactly the
one the `packer` variable tracks (so there is at most one), and every live
run id is below the fresh-id counter. -/
def StageInv (s : StageState) : Prop :=
  s.liveRuns = s.packer.toList ∧ ∀ r ∈ s.liveRuns, r < s.nextRun

instance (s : StageState) : Decidable (StageInv s) := by
  unfold StageInv
  infer_instance

/-!
Helper lemmas: quaternion algebra.  These are all componentwise polynomial
identities over `ℚ`.
-/

lemma Quat.mul_assoc (p q r : Quat) : (p.mul q).mul r = p.mul (q.mul r) := by
  simp only [Quat.mul]
  ext <;> ring

lemma Vec3.applyQuaternion_mul (p q : Quat) (v : Vec3) :
    v.applyQuaternion (p.mul q) = (v.applyQuaternion q).applyQuaternion p := by
  simp only [Vec3.applyQuaternion, Quat.mul, Quat.conj, Vec3.toQuat, Quat.vec]
  ext <;> ring

/-- The shortest-arc construction is equivariant under conjugation: the
arc from `u` to the inverse-rotated `d`, pushed through `q` on the left,
is the arc from the rotated `u` to `d`, with `q` on the right.  This holds
for every quaternion `q`, unit or not. -/
lemma arcGen_conj (q : Quat) (u d : Vec3) :
    q.mul (arcGen u (d.applyQuaternion q.conj)) =
      (arcGen (u.applyQuaternion q) d).mul q := by
  simp only [Vec3.applyQuaternion, Quat.mul, Quat.conj, Vec3.toQuat, Quat.vec,
    arcGen, Vec3.dot, Vec3.cross]
  ext <;> ring

/-- Conjugating `a` by the raw arc quaternion lands on `b` up to the
scalars forced by the norms of `a` and `b`. -/
lemma arcGen_apply (a b : Vec3) :
    a.applyQuaternion (arcGen a b) =
      (Vec3.smul (1 - a.normSq * b.normSq) a).add
        (Vec3.smul (2 * (1 + a.dot b) * a.normSq) b) := by
  simp only [Vec3.applyQuaternion, Quat.mul, Quat.conj, Vec3.toQuat, Quat.vec,
    arcGen, Vec3.dot, Vec3.cross, Vec3.smul, Vec3.add, Vec3.normSq]
  ext <;> ring

lemma arcGen_normSq (a b : Vec3) :
    (arcGen a b).normSq = (1 + a.dot b) ^ 2 + a.normSq * b.normSq - a.dot b ^ 2 := by
  simp only [arcGen, Quat.normSq, Vec3.dot, Vec3.cross, Vec3.normSq]
  ring

lemma Vec3.dot_applyQuaternion_shift (q : Quat) (u d : Vec3) :
    u.dot (d.applyQuaternion q.conj) = (u.applyQuaternion q).dot d := by
  simp only [Vec3.applyQuaternion, Quat.mul, Quat.conj, Vec3.toQuat, Quat.vec, Vec3.dot]
  ring

lemma Vec3.dot_applyQuaternion (q : Quat) (u v : Vec3) :
    (u.applyQuaternion q).dot (v.applyQuaternion q) = q.normSq ^ 2 * u.dot v := by
  simp only [Vec3.applyQuaternion, Quat.mul, Quat.conj, Vec3.toQuat, Quat.vec,
    Vec3.dot, Quat.normSq]
  ring

lemma Vec3.applyQuaternion_conj_cancel (q : Quat) (v : Vec3) :
    (v.applyQuaternion q.conj).applyQuaternion q = Vec3.smul (q.normSq ^ 2) v := by
  simp only [Vec3.applyQuaternion, Quat.mul, Quat.conj, Vec3.toQuat, Quat.vec,
    Vec3.smul, Quat.normSq]
  ext <;> ring

lemma Quat.normSq_mul (p q : Quat) : (p.mul q).normSq = p.normSq * q.normSq := by
  simp only [Quat.mul, Quat.normSq]
  ring

lemma Vec3.applyQuaternion_smul (q : Quat) (c : ℚ) (v : Vec3) :
    (Vec3.smul c v).applyQuaternion q = Vec3.smul c (v.applyQuaternion q) := by
  simp only [Vec3.applyQuaternion, Quat.mul, Quat.conj, Vec3.toQuat, Quat.vec, Vec3.smul]
  ext <;> ring

lemma Vec3.normSq_applyQuaternion (q : Quat) (v : Vec3) :
    (v.applyQuaternion q).normSq = q.normSq ^ 2 * v.normSq := by
  simpa [Vec3.normSq] using Vec3.dot_applyQuaternion q v v

/-!
Helper lemmas: matrices and affine transforms.
-/

lemma Mat3.mul_mulVec (a b : Mat3) (v : Vec3) :
    (a.mul b).mulVec v = a.mulVec (b.mulVec v) := by
  simp only [Mat3.mul, Mat3.mulVec]
  ext <;> ring

lemma Aff.apply_comp (t u : Aff) (v : Vec3) :
    (t.comp u).apply v = t.apply (u.apply v) := by
  simp only [Aff.comp, Aff.apply, Mat3.mul, Mat3.mulVec, Vec3.add]
  ext <;> ring

/-- The inverse affine transform undoes the transform, pointwise. -/
lemma Aff.inv_apply_apply (t : Aff) (h : t.linear.det ≠ 0) (v : Vec3) :
    (Aff.inv t).apply (t.apply v) = v := by
  obtain ⟨⟨m11, m12, m13, m21, m22, m23, m31, m32, m33⟩, ⟨tx, ty, tz⟩⟩ := t
  simp only [Mat3.det] at h
  simp only [Aff.inv, Aff.apply, Mat3.inv, Mat3.det, Mat3.mulVec, Vec3.add, Vec3.neg]
  ext <;> field_simp <;> ring

/-- The inverse affine transform cancels the transform under composition. -/
lemma Aff.inv_comp_comp (t u : Aff) (h : t.linear.det ≠ 0) :
    (Aff.inv t).comp (t.comp u) = u := by
  obtain ⟨⟨m11, m12, m13, m21, m22, m23, m31, m32, m33⟩, ⟨tx, ty, tz⟩⟩ := t
  simp only [Mat3.det] at h
  simp only [Aff.inv, Aff.comp, Mat3.inv, Mat3.det, Mat3.mul, Mat3.mulVec, Vec3.add, Vec3.neg]
  ext <;> field_simp <;> ring

/-- The round trip `worldToLocal ∘ localToWorld` of `localToBed` collapses
to the object's own local matrix whenever the bed frame is invertible. -/
lemma localToBed_cancel (bed : Aff) (o : PrintObj) (h : bed.linear.det ≠ 0) (v : Vec3) :
    localToBed bed o v = (localAff o).apply v := by
  rw [localToBed, Aff.apply_comp, Aff.inv_apply_apply bed h]

/-- Bed-space height of a vertex, written out: the vertical component of
the object's local matrix applied to it, shifted by the object's own
vertical position. -/
lemma bedZ_eq (bed : Aff) (o : PrintObj) (h : bed.linear.det ≠ 0) (v : Vec3) :
    bedZ bed o v = ((localAff o).linear.mulVec v).z + o.position.z := by
  rw [bedZ, localToBed_cancel bed o h]
  simp only [localAff, composeMatrix, Aff.apply, Vec3.add]

/-!
Helper lemmas: the `findLowestPoint` comparison loop.
-/

lemma flpGo_z_le_init (f : Vec3 → ℚ) :
    ∀ (vs : List Vec3) (i : Nat) (lp : LowPoint), (flpGo f vs i lp).z ≤ lp.z := by
  intro vs
  induction vs with
  | nil => intro i lp; simp [flpGo]
  | cons v vs ih =>
    intro i lp
    simp only [flpGo]
    by_cases hv : f v < lp.z
    · rw [if_pos hv]
      exact le_trans (ih (i+1) ⟨i, v, f v⟩) (le_of_lt hv)
    · rw [if_neg hv]
      exact ih (i+1) lp

lemma flpGo_z_le_mem (f : Vec3 → ℚ) :
    ∀ (vs : List Vec3) (i : Nat) (lp : LowPoint) (j : Nat) (hj : j < vs.length),
      (flpGo f vs i lp).z ≤ f (vs.get ⟨j, hj⟩) := by
  intro vs
  induction vs with
  | nil => intro i lp j hj; simp at hj
  | cons v vs ih =>
    intro i lp j hj
    cases j with
    | zero =>
      simp only [flpGo, List.get]
      by_cases hv : f v < lp.z
      · rw [if_pos hv]
        exact le_trans (flpGo_z_le_init f vs (i+1) ⟨i, v, f v⟩) (le_refl _)
      · rw [if_neg hv]
        exact le_trans (flpGo_z_le_init f vs (i+1) lp) (le_of_not_lt hv)
    | succ j =>
      simp only [flpGo, List.get]
      exact ih (i+1) _ j (by simpa using hj)

/-- Where the comparison loop's result comes from: either the initial
accumulator survives, or the result is some list entry that strictly
improved on the accumulator and on every entry before it (ties keep the
earlier index). -/
lemma flpGo_loc (f : Vec3 → ℚ) :
    ∀ (vs : List Vec3) (i : Nat) (lp : LowPoint),
      flpGo f vs i lp = lp ∨
      ∃ j, ∃ hj : j < vs.length,
        flpGo f vs i lp = ⟨i + j, vs.get ⟨j, hj⟩, f (vs.get ⟨j, hj⟩)⟩ ∧
        f (vs.get ⟨j, hj⟩) < lp.z ∧
        ∀ j', (hj' : j' < vs.length) → j' < j →
          f (vs.get ⟨j, hj⟩) < f (vs.get ⟨j', hj'⟩) := by
  intro vs
  induction vs with
  | nil => intro i lp; left; rfl
  | cons v vs ih =>
    intro i lp
    simp only [flpGo]
    by_cases hv : f v < lp.z
    · rw [if_pos hv]
      right
      rcases ih (i+1) ⟨i, v, f v⟩ with h | ⟨j, hj, heq, hlt, hfirst⟩
      · refine ⟨0, by simp, ?_, by simpa using hv, ?_⟩
        · simpa using h
        · intro j' hj' hj0
          omega
      · refine ⟨j + 1, by simpa using hj, ?_, ?_, ?_⟩
        · rw [heq]
          simp only [List.get]
          congr 1
          omega
        · simp only [List.get]
          exact lt_trans (by simpa using hlt) hv
        · intro j' hj' hjlt
          cases j' with
          | zero =>
            simp only [List.get]
            exact (by simpa using hlt)
          | succ j' =>
            simp only [List.get]
            exact hfirst j' (by simpa using hj') (by omega)
    · rw [if_neg hv]
      rcases ih (i+1) lp with h | ⟨j, hj, heq, hlt, hfirst⟩
      · left; exact h
      · right
        refine ⟨j + 1, by simpa using hj, ?_, ?_, ?_⟩
        · rw [heq]
          simp only [List.get]
          congr 1
          omega
        · simp only [List.get]
          exact hlt
        · intro j' hj' hjlt
          cases j' with
          | zero =>
            simp only [List.get]
            exact lt_of_lt_of_le hlt (le_of_not_lt hv)
          | succ j' =>
            simp only [List.get]
            exact hfirst j' (by simpa using hj') (by omega)

/-!
Helper lemmas: the candidate-selection loop of `layObjectFlat`.
-/

lemma selGo_ge_init :
    ∀ (cs : List LayFlatCandidate) (c : LayFlatCandidate),
      c.dotDown ≤ (selGo c cs).dotDown := by
  intro cs
  induction cs with
  | nil => intro c; simp [selGo]
  | cons d cs ih =>
    intro c
    simp only [selGo, List.foldl]
    by_cases hd : c.dotDown < d.dotDown
    · rw [if_pos hd]
      exact le_trans (le_of_lt hd) (ih d)
    · rw [if_neg hd]
      exact ih c

lemma selGo_ge_mem :
    ∀ (cs : List LayFlatCandidate) (c : LayFlatCandidate) (j : Nat) (hj : j < cs.length),
      (cs.get ⟨j, hj⟩).dotDown ≤ (selGo c cs).dotDown := by
  intro cs
  induction cs with
  | nil => intro c j hj; simp at hj
  | cons d cs ih =>
    intro c j hj
    cases j with
    | zero =>
      simp only [selGo, List.foldl, List.get]
      by_cases hd : c.dotDown < d.dotDown
      · rw [if_pos hd]
        exact selGo_ge_init cs d
      · rw [if_neg hd]
        exact le_trans (le_of_not_lt hd) (selGo_ge_init cs c)
    | succ j =>
      simp only [selGo, List.foldl, List.get]
      by_cases hd : c.dotDown < d.dotDown
      · rw [if_pos hd]
        exact ih d j (by simpa using hj)
      · rw [if_neg hd]
        exact ih c j (by simpa using hj)

/-- Where the selected candidate comes from: either the head survives, or
the result is some later candidate that strictly improved on the head and
on every candidate before it (ties keep the earlier index, matching the
head of the stable ascending sort). -/
lemma selGo_loc :
    ∀ (cs : List LayFlatCandidate) (c : LayFlatCandidate),
      selGo c cs = c ∨
      ∃ j, ∃ hj : j < cs.length,
        selGo c cs = cs.get ⟨j, hj⟩ ∧
        c.dotDown < (selGo c cs).dotDown ∧
        ∀ j', (hj' : j' < cs.length) → j' < j →
          (cs.get ⟨j', hj'⟩).dotDown < (selGo c cs).dotDown := by
  intro cs
  induction cs with
  | nil => intro c; left; rfl
  | cons d cs ih =>
    intro c
    have hstep : selGo c (d :: cs) =
        selGo (if c.dotDown < d.dotDown then d else c) cs := rfl
    by_cases hd : c.dotDown < d.dotDown
    · rw [if_pos hd] at hstep
      rcases ih d with h | ⟨j, hj, heq, hlt, hfirst⟩
      · right
        refine ⟨0, by simp, ?_, ?_, ?_⟩
        · simp [hstep, h]
        · rw [hstep, h]; exact hd
        · intro j' hj' h0; omega
      · right
        refine ⟨j + 1, by simpa using hj, ?_, ?_, ?_⟩
        · rw [hstep, heq]; rfl
        · rw [hstep]
          exact lt_trans hd hlt
        · intro j' hj' hjlt
          cases j' with
          | zero =>
            rw [hstep]
            simpa using hlt
          | succ j' =>
            rw [hstep]
            simpa using hfirst j' (by simpa using hj') (by omega)
    · rw [if_neg hd] at hstep
      rcases ih c with h | ⟨j, hj, heq, hlt, hfirst⟩
      · left
        rw [hstep, h]
      · right
        refine ⟨j + 1, by simpa using hj, ?_, ?_, ?_⟩
        · rw [hstep, heq]; rfl
        · rw [hstep]; exact hlt
        · intro j' hj' hjlt
          cases j' with
          | zero =>
            rw [hstep]
            simpa using lt_of_le_of_lt (le_of_not_lt hd) hlt
          | succ j' =>
            rw [hstep]
            simpa using hfirst j' (by simpa using hj') (by omega)

/-!
Helper lemmas: `findLowestPoint` on a nonempty hull.
-/

/-- Specification of the whole scan on a nonempty vertex list `v :: vs`:
the returned record points at a genuine list entry, carries that entry's
height, is minimal over the list, and every entry before it is strictly
higher (first-encounter tie-breaking). -/
lemma flp_list_spec (f : Vec3 → ℚ) (v : Vec3) (vs : List Vec3) :
    ∃ lp, flpGo f vs 1 ⟨0, v, f v⟩ = lp ∧
      (∃ hidx : lp.index < (v :: vs).length,
        (v :: vs).get ⟨lp.index, hidx⟩ = lp.vertex) ∧
      lp.z = f lp.vertex ∧
      (∀ j, (hj : j < (v :: vs).length) → lp.z ≤ f ((v :: vs).get ⟨j, hj⟩)) ∧
      (∀ j, (hj : j < (v :: vs).length) → j < lp.index →
        lp.z < f ((v :: vs).get ⟨j, hj⟩)) := by
  refine ⟨flpGo f vs 1 ⟨0, v, f v⟩, rfl, ?_, ?_, ?_, ?_⟩
  · rcases flpGo_loc f vs 1 ⟨0, v, f v⟩ with h | ⟨j, hj, heq, hlt, hfirst⟩
    · rw [h]
      exact ⟨by simp, by simp⟩
    · rw [heq]
      refine ⟨by simp only [List.length_cons]; omega, ?_⟩
      have h1j : 1 + j = j + 1 := Nat.add_comm 1 j
      simp only [h1j, List.get]
  · rcases flpGo_loc f vs 1 ⟨0, v, f v⟩ with h | ⟨j, hj, heq, hlt, hfirst⟩
    · rw [h]
    · rw [heq]
  · intro j hjlen
    cases j with
    | zero =>
      simpa using flpGo_z_le_init f vs 1 ⟨0, v, f v⟩
    | succ j =>
      simpa [List.get] using flpGo_z_le_mem f vs 1 ⟨0, v, f v⟩ j (by simpa using hjlen)
  · rcases flpGo_loc f vs 1 ⟨0, v, f v⟩ with h | ⟨j, hj, heq, hlt, hfirst⟩
    · intro j hjlen hjidx
      rw [h] at hjidx
      simp at hjidx
    · intro j' hjlen hjidx
      rw [heq] at hjidx ⊢
      cases j' with
      | zero =>
        simpa [List.get] using hlt
      | succ j' =>
        simp only [List.get]
        exact hfirst j' (by simpa using hjlen) (by simp only at hjidx; omega)

/-- Specification of `findLowestPoint` on an object with a nonempty hull,
shared by the floor-drop theorems. -/
lemma findLowestPoint_spec (bed : Aff) (o : PrintObj) (hne : o.hull ≠ []) :
    ∃ lp, findLowestPoint bed o = some lp ∧
      (∃ hidx : lp.index < o.hull.length, o.hull.get ⟨lp.index, hidx⟩ = lp.vertex) ∧
      lp.z = bedZ bed o lp.vertex ∧
      (∀ j, (hj : j < o.hull.length) → lp.z ≤ bedZ bed o (o.hull.get ⟨j, hj⟩)) ∧
      (∀ j, (hj : j < o.hull.length) → j < lp.index →
        lp.z < bedZ bed o (o.hull.get ⟨j, hj⟩)) := by
  have hsome : ∀ v vs, o.hull = v :: vs →
      findLowestPoint bed o =
        some (flpGo (fun u => bedZ bed o u) vs 1 ⟨0, v, bedZ bed o v⟩) := by
    intro v vs hh
    rw [findLowestPoint, hh]
  generalize hG : o.hull = L
  cases L with
  | nil => exact absurd hG hne
  | cons v vs =>
    obtain ⟨lp, hlp, h1, h2, h3, h4⟩ := flp_list_spec (fun u => bedZ bed o u) v vs
    refine ⟨lp, ?_, h1, h2, h3, h4⟩
    rw [hsome v vs hG, hlp]

/-- Membership form of the minimality in `findLowestPoint_spec`. -/
lemma findLowestPoint_min_mem (bed : Aff) (o : PrintObj) (lp : LowPoint)
    (hmin : ∀ j, (hj : j < o.hull.length) → lp.z ≤ bedZ bed o (o.hull.get ⟨j, hj⟩)) :
    ∀ u ∈ o.hull, lp.z ≤ bedZ bed o u := by
  intro u hu
  obtain ⟨⟨j, hj⟩, hget⟩ := List.mem_iff_get.mp hu
  exact hget ▸ hmin j hj

/-- Replacing only the vertical position of an object shifts every
bed-space height by the same amount. -/
lemma bedZ_shift (bed : Aff) (o : PrintObj) (h : bed.linear.det ≠ 0) (dz : ℚ) (v : Vec3) :
    bedZ bed { o with position := ⟨o.position.x, o.position.y, o.position.z - dz⟩ } v =
      bedZ bed o v - dz := by
  rw [bedZ_eq bed _ h, bedZ_eq bed o h]
  simp only [localAff, composeMatrix]
  ring

/-- Everything the floor-drop claims need about `dropObjectToFloor`: the
result exists, only the vertical position changed, every hull vertex ends
at nonnegative bed height, and some hull vertex ends exactly at zero. -/
lemma dropObjectToFloor_spec (bed : Aff) (o : PrintObj)
    (hdet : bed.linear.det ≠ 0) (hne : o.hull ≠ []) :
    ∃ o2, dropObjectToFloor bed o = some o2 ∧
      o2.geometry = o.geometry ∧ o2.hull = o.hull ∧ o2.hullFaces = o.hullFaces ∧
      o2.position.x = o.position.x ∧ o2.position.y = o.position.y ∧
      o2.quaternion = o.quaternion ∧ o2.scale = o.scale ∧
      (∀ v ∈ o2.hull, 0 ≤ bedZ bed o2 v) ∧
      (∃ v ∈ o2.hull, bedZ bed o2 v = 0) := by
  obtain ⟨lp, hlp, ⟨hidx, hget⟩, hz, hmin, _⟩ := findLowestPoint_spec bed o hne
  refine ⟨{ o with position := ⟨o.position.x, o.position.y, o.position.z - lp.z⟩ },
    ?_, rfl, rfl, rfl, rfl, rfl, rfl, rfl, ?_, ?_⟩
  · rw [dropObjectToFloor, hlp]
    rfl
  · intro v hv
    rw [bedZ_shift bed o hdet lp.z v, sub_nonneg]
    exact findLowestPoint_min_mem bed o lp hmin v hv
  · refine ⟨lp.vertex, ?_, ?_⟩
    · exact hget ▸ List.get_mem o.hull lp.index hidx
    · rw [bedZ_shift bed o hdet lp.z lp.vertex, hz, sub_self]

/-- C3: `findLowestPoint` returns the hull vertex (with its index and
bed-space height) whose bed-space vertical coordinate is minimal over all
hull vertices; it scans hull vertices only (the result is independent of
the mesh geometry), and ties go deterministically to the first-encountered
hull index. -/
theorem findLowestPoint_min_first (bed : Aff) (o : PrintObj) (hne : o.hull ≠ []) :
    ∃ lp, findLowestPoint bed o = some lp ∧
      (∃ hidx : lp.index < o.hull.length, o.hull.get ⟨lp.index, hidx⟩ = lp.vertex) ∧
      lp.z = bedZ bed o lp.vertex ∧
      (∀ j, (hj : j < o.hull.length) → lp.z ≤ bedZ bed o (o.hull.get ⟨j, hj⟩)) ∧
      (∀ j, (hj : j < o.hull.length) → j < lp.index →
        lp.z < bedZ bed o (o.hull.get ⟨j, hj⟩)) ∧
      (∀ g : List Vec3, findLowestPoint bed { o with geometry := g } = findLowestPoint bed o) := by
  obtain ⟨lp, hlp, h1, h2, h3, h4⟩ := findLowestPoint_spec bed o hne
  exact ⟨lp, hlp, h1, h2, h3, h4, fun g => rfl⟩

/-- Witness for C3 at a concrete object: a three-vertex hull whose second
and third vertices tie for the minimum height; the scan returns index 1,
the first of the tied pair. -/
theorem findLowestPoint_min_first_witness :
    ∃ lp, findLowestPoint
        ⟨⟨1, 0, 0, 0, 1, 0, 0, 0, 1⟩, ⟨0, 0, 0⟩⟩
        ⟨[], [⟨0, 0, 5⟩, ⟨1, 0, 2⟩, ⟨2, 0, 2⟩], [], ⟨0, 0, 0⟩, ⟨1, 0, 0, 0⟩, ⟨1, 1, 1⟩⟩ = some lp ∧
      (∃ hidx : lp.index <
          ([⟨0, 0, 5⟩, ⟨1, 0, 2⟩, ⟨2, 0, 2⟩] : List Vec3).length,
        ([⟨0, 0, 5⟩, ⟨1, 0, 2⟩, ⟨2, 0, 2⟩] : List Vec3).get ⟨lp.index, hidx⟩ = lp.vertex) ∧
      lp.z = bedZ ⟨⟨1, 0, 0, 0, 1, 0, 0, 0, 1⟩, ⟨0, 0, 0⟩⟩
        ⟨[], [⟨0, 0, 5⟩, ⟨1, 0, 2⟩, ⟨2, 0, 2⟩], [], ⟨0, 0, 0⟩, ⟨1, 0, 0, 0⟩, ⟨1, 1, 1⟩⟩ lp.vertex := by
  obtain ⟨lp, hlp, h1, h2, h3, h4, h5⟩ := findLowestPoint_min_first
    ⟨⟨1, 0, 0, 0, 1, 0, 0, 0, 1⟩, ⟨0, 0, 0⟩⟩
    ⟨[], [⟨0, 0, 5⟩, ⟨1, 0, 2⟩, ⟨2, 0, 2⟩], [], ⟨0, 0, 0⟩, ⟨1, 0, 0, 0⟩, ⟨1, 1, 1⟩⟩
    (by simp)
  exact ⟨lp, hlp, h1, h2⟩

/-- C1: for every object with a nonempty convex hull, `dropObjectToFloor`
leaves the minimum over all hull vertices of the bed-space vertical
coordinate at exactly 0 (the float tolerance idealized to exact rational
arithmetic), and translates the object only along the bed's vertical
axis: its X and Y position components (and its orientation and scale) are
unchanged. -/
theorem dropObjectToFloor_floors_object (bed : Aff) (o : PrintObj)
    (hdet : bed.linear.det ≠ 0) (hne : o.hull ≠ []) :
    ∃ o2, dropObjectToFloor bed o = some o2 ∧
      o2.position.x = o.position.x ∧ o2.position.y = o.position.y ∧
      o2.quaternion = o.quaternion ∧ o2.scale = o.scale ∧ o2.hull = o.hull ∧
      (∀ v ∈ o2.hull, 0 ≤ bedZ bed o2 v) ∧
      (∃ v ∈ o2.hull, bedZ bed o2 v = 0) := by
  obtain ⟨o2, h1, hg, hh, hf, hx, hy, hq, hs, hnn, hz⟩ :=
    dropObjectToFloor_spec bed o hdet hne
  exact ⟨o2, h1, hx, hy, hq, hs, hh, hnn, hz⟩

/-- Witness for C1: a unit-cube-like hull hanging above the bed; after the
drop its lowest vertex sits at bed height 0 and X/Y are untouched. -/
theorem dropObjectToFloor_floors_object_witness :
    ∃ o2, dropObjectToFloor
        ⟨⟨1, 0, 0, 0, 1, 0, 0, 0, 1⟩, ⟨-150, -150, 0⟩⟩
        ⟨[], [⟨0, 0, 5⟩, ⟨1, 0, 2⟩], [], ⟨3, 4, 7⟩, ⟨1, 0, 0, 0⟩, ⟨1, 1, 1⟩⟩ = some o2 ∧
      o2.position.x = 3 ∧ o2.position.y = 4 ∧
      (∀ v ∈ o2.hull, 0 ≤ bedZ ⟨⟨1, 0, 0, 0, 1, 0, 0, 0, 1⟩, ⟨-150, -150, 0⟩⟩ o2 v) ∧
      (∃ v ∈ o2.hull, bedZ ⟨⟨1, 0, 0, 0, 1, 0, 0, 0, 1⟩, ⟨-150, -150, 0⟩⟩ o2 v = 0) := by
  obtain ⟨o2, h1, hx, hy, hq, hs, hh, hnn, hz⟩ := dropObjectToFloor_floors_object
    ⟨⟨1, 0, 0, 0, 1, 0, 0, 0, 1⟩, ⟨-150, -150, 0⟩⟩
    ⟨[], [⟨0, 0, 5⟩, ⟨1, 0, 2⟩], [], ⟨3, 4, 7⟩, ⟨1, 0, 0, 0⟩, ⟨1, 1, 1⟩⟩
    (by norm_num [Mat3.det]) (by simp)
  exact ⟨o2, h1, hx, hy, hnn, hz⟩

/-- C5: `dropObjectToFloor` is idempotent: immediately after a first call
the second call recomputes a lowest height of exactly 0 and leaves the
object (in particular its position) unchanged. -/
theorem dropObjectToFloor_idempotent (bed : Aff) (o : PrintObj)
    (hdet : bed.linear.det ≠ 0) (hne : o.hull ≠ []) :
    ∃ o1, dropObjectToFloor bed o = some o1 ∧ dropObjectToFloor bed o1 = some o1 := by
  obtain ⟨o1, h1, hg, hh, hf, hx, hy, hq, hs, hnonneg, hzero⟩ :=
    dropObjectToFloor_spec bed o hdet hne
  refine ⟨o1, h1, ?_⟩
  have hne1 : o1.hull ≠ [] := by rw [hh]; exact hne
  obtain ⟨lp, hlp, ⟨hidx, hget⟩, hz, hmin, _⟩ := findLowestPoint_spec bed o1 hne1
  obtain ⟨v0, hv0mem, hv0⟩ := hzero
  have hle : lp.z ≤ 0 := by
    have hh0 := findLowestPoint_min_mem bed o1 lp hmin v0 hv0mem
    rw [hv0] at hh0
    exact hh0
  have hge : 0 ≤ lp.z := by
    rw [hz]
    exact hnonneg lp.vertex (hget ▸ List.get_mem o1.hull lp.index hidx)
  have hz0 : lp.z = 0 := le_antisymm hle hge
  rw [dropObjectToFloor, hlp]
  simp [hz0]

/-- Witness for C5 at the same concrete object as the C1 witness. -/
theorem dropObjectToFloor_idempotent_witness :
    ∃ o1, dropObjectToFloor
        ⟨⟨1, 0, 0, 0, 1, 0, 0, 0, 1⟩, ⟨-150, -150, 0⟩⟩
        ⟨[], [⟨0, 0, 5⟩, ⟨1, 0, 2⟩], [], ⟨3, 4, 7⟩, ⟨1, 0, 0, 0⟩, ⟨1, 1, 1⟩⟩ = some o1 ∧
      dropObjectToFloor ⟨⟨1, 0, 0, 0, 1, 0, 0, 0, 1⟩, ⟨-150, -150, 0⟩⟩ o1 = some o1 := by
  exact dropObjectToFloor_idempotent
    ⟨⟨1, 0, 0, 0, 1, 0, 0, 0, 1⟩, ⟨-150, -150, 0⟩⟩
    ⟨[], [⟨0, 0, 5⟩, ⟨1, 0, 2⟩], [], ⟨3, 4, 7⟩, ⟨1, 0, 0, 0⟩, ⟨1, 1, 1⟩⟩
    (by norm_num [Mat3.det]) (by simp)

/-- C8: `onMirrorAxis` applied twice on the same axis restores the
selection's scale exactly, sign included — the operation is
self-inverse. -/
theorem onMirrorAxis_self_inverse (axis : MirrorAxis) (scale : Vec3) :
    onMirrorAxis axis (onMirrorAxis axis scale) = scale := by
  cases axis <;> (simp only [onMirrorAxis]; ext <;> simp)

/-- C9: for every circular printer configuration the bed-geometry branch
of `PrinterRepresentation`'s constructor fails (the unbound identifier
`min`), and for every rectangular configuration it succeeds with the
plane geometry. -/
theorem printerRepresentation_bed_geometry (p : PrinterConfig) :
    (p.circular = true →
      makeBedGeometry p = Except.error "ReferenceError: min is not defined") ∧
    (p.circular = false →
      makeBedGeometry p = Except.ok (BedGeometry.planeGeom p.x_width p.y_depth)) := by
  constructor <;> intro h <;> simp [makeBedGeometry, h]

/-- Witness for C9 on one circular and one rectangular configuration. -/
theorem printerRepresentation_bed_geometry_witness :
    makeBedGeometry ⟨true, false, 200, 220, 240⟩ =
      Except.error "ReferenceError: min is not defined" ∧
    makeBedGeometry ⟨false, false, 200, 220, 240⟩ =
      Except.ok (BedGeometry.planeGeom 200 220) := by
  exact ⟨(printerRepresentation_bed_geometry ⟨true, false, 200, 220, 240⟩).1 rfl,
    (printerRepresentation_bed_geometry ⟨false, false, 200, 220, 240⟩).2 rfl⟩

/-- C6: `setPrintBounds` misses vertical overflow: with bounds whose Z
maximum (500) exceeds the 300-high print volume while X and Y stay inside
it, the code leaves the warning flag off even though the print volume
comparison the spec describes flags the placement as out of bounds (the
code's last comparison reads `bounds.max.y` where `bounds.max.z` is
meant). -/
theorem setPrintBounds_misses_z_overflow :
    setPrintBoundsWarning ⟨⟨0, 0, 0⟩, ⟨1, 1, 500⟩⟩ ⟨300, 300, 300⟩ = false ∧
    outOfBoundsSpec ⟨⟨0, 0, 0⟩, ⟨1, 1, 500⟩⟩ ⟨300, 300, 300⟩ = true := by
  constructor <;> norm_num [setPrintBoundsWarning, outOfBoundsSpec]

/-- Counterexample for C7: start a packing run, then remove all objects;
`removeObjects` (which only clears the selection and empties the object
list) leaves the run both tracked and live, so object removal does not
stop, destroy or release the in-flight run.  The same state shows
`selectNone` leaves the run alive. -/
theorem removeObjects_keeps_run_alive :
    (arrangeObjectsOnPlatformSt initStage).packer = some 0 ∧
    (arrangeObjectsOnPlatformSt initStage).liveRuns = [0] ∧
    (removeObjectsSt (arrangeObjectsOnPlatformSt initStage)).packer = some 0 ∧
    (removeObjectsSt (arrangeObjectsOnPlatformSt initStage)).liveRuns = [0] ∧
    (selectNoneSt (arrangeObjectsOnPlatformSt initStage)).packer = some 0 ∧
    (selectNoneSt (arrangeObjectsOnPlatformSt initStage)).liveRuns = [0] := by
  decide

/-- C7 as amended: at most one packing run is ever in flight (the live
runs are exactly the one the `packer` variable tracks), the invariant is
preserved by every lifecycle operation, and a new arrangement request
first destroys and releases the in-flight run — the old run id is gone
from the live set when the replacement starts.  Object removal and
selection clearing do not cancel a run. -/
theorem packer_single_run (s : StageState) (g r : Nat) (h : StageInv s) :
    StageInv (arrangeObjectsOnPlatformSt s) ∧
    StageInv (removeObjectsSt s) ∧
    StageInv (selectNoneSt s) ∧
    StageInv (addGeometrySt s g) ∧
    s.liveRuns.length ≤ 1 ∧
    (arrangeObjectsOnPlatformSt s).liveRuns.length ≤ 1 ∧
    (s.packer = some r → r ∉ (arrangeObjectsOnPlatformSt s).liveRuns) := by
  obtain ⟨htrack, hbound⟩ := h
  have harr : ∀ t : StageState, StageInv t → StageInv (arrangeObjectsOnPlatformSt t) := by
    intro t ⟨ht, hb⟩
    cases hp : t.packer with
    | none =>
      constructor
      · simp [arrangeObjectsOnPlatformSt, selectNoneSt, hp, ht, Option.toList]
      · intro x hx
        simp [arrangeObjectsOnPlatformSt, selectNoneSt, hp, ht, Option.toList] at hx ⊢
        omega
    | some r0 =>
      have herase : t.liveRuns.erase r0 = [] := by
        rw [ht, hp]
        simp [Option.toList, List.erase]
      constructor
      · simp [arrangeObjectsOnPlatformSt, packingFinishedSt, selectNoneSt, hp, herase,
          Option.toList]
      · intro x hx
        simp [arrangeObjectsOnPlatformSt, packingFinishedSt, selectNoneSt, hp, herase,
          Option.toList] at hx ⊢
        omega
  refine ⟨harr s ⟨htrack, hbound⟩, ?_, ?_, ?_, ?_, ?_, ?_⟩
  · exact ⟨htrack, hbound⟩
  · exact ⟨htrack, hbound⟩
  · exact harr { s with objects := s.objects ++ [g] } ⟨htrack, hbound⟩
  · rw [htrack]
    cases s.packer <;> simp [Option.toList]
  · rcases (harr s ⟨htrack, hbound⟩) with ⟨ht2, _⟩
    rw [ht2]
    cases (arrangeObjectsOnPlatformSt s).packer <;> simp [Option.toList]
  · intro hp hmem
    have hrlt : r < s.nextRun := by
      apply hbound
      rw [htrack, hp]
      simp [Option.toList]
    have herase : s.liveRuns.erase r = [] := by
      rw [htrack, hp]
      simp [Option.toList, List.erase]
    simp [arrangeObjectsOnPlatformSt, packingFinishedSt, selectNoneSt, hp, herase,
      Option.toList] at hmem
    omega

/-- Witness for C7's amended theorem at the state right after a first
arrangement, where run 0 is in flight. -/
theorem packer_single_run_witness :
    StageInv (arrangeObjectsOnPlatformSt (arrangeObjectsOnPlatformSt initStage)) ∧
    StageInv (removeObjectsSt (arrangeObjectsOnPlatformSt initStage)) ∧
    StageInv (selectNoneSt (arrangeObjectsOnPlatformSt initStage)) ∧
    StageInv (addGeometrySt (arrangeObjectsOnPlatformSt initStage) 7) ∧
    (arrangeObjectsOnPlatformSt initStage).liveRuns.length ≤ 1 ∧
    (arrangeObjectsOnPlatformSt (arrangeObjectsOnPlatformSt initStage)).liveRuns.length ≤ 1 ∧
    ((arrangeObjectsOnPlatformSt initStage).packer = some 0 →
      0 ∉ (arrangeObjectsOnPlatformSt (arrangeObjectsOnPlatformSt initStage)).liveRuns) := by
  exact packer_single_run (arrangeObjectsOnPlatformSt initStage) 7 0 (by decide)

/-- C10: `getAllGeometry` returns one baked geometry per placed object —
the stored geometry with the full pose and the inverse bed-relative
transform applied, which collapses to the pose alone in bed coordinates —
and leaves every stored object (geometry, position, quaternion, scale)
exactly as it was, since the baking happens on clones. -/
theorem getAllGeometry_bakes (bed : Aff) (objs : List PrintObj)
    (hdet : bed.linear.det ≠ 0) :
    (getAllGeometry bed objs).2 = objs ∧
    (getAllGeometry bed objs).1 =
      objs.map fun o => o.geometry.map fun v => (localAff o).apply v := by
  constructor
  · rfl
  · simp only [getAllGeometry]
    apply List.map_congr_left
    intro o ho
    have hb : bakeTransform bed o = localAff o := by
      rw [bakeTransform, Aff.inv_comp_comp bed (localAff o) hdet]
    rw [hb]

/-- Witness for C10: the real bed frame (printer axes rotated so Z goes
up, origin shifted to the bed corner) and one posed object. -/
theorem getAllGeometry_bakes_witness :
    (getAllGeometry ⟨⟨1, 0, 0, 0, 0, 1, 0, -1, 0⟩, ⟨-150, -150, 0⟩⟩
        [⟨[⟨1, 2, 3⟩], [], [], ⟨5, 6, 7⟩, ⟨1, 0, 0, 0⟩, ⟨1, 1, 1⟩⟩]).2 =
      [⟨[⟨1, 2, 3⟩], [], [], ⟨5, 6, 7⟩, ⟨1, 0, 0, 0⟩, ⟨1, 1, 1⟩⟩] ∧
    (getAllGeometry ⟨⟨1, 0, 0, 0, 0, 1, 0, -1, 0⟩, ⟨-150, -150, 0⟩⟩
        [⟨[⟨1, 2, 3⟩], [], [], ⟨5, 6, 7⟩, ⟨1, 0, 0, 0⟩, ⟨1, 1, 1⟩⟩]).1 =
      ([⟨[⟨1, 2, 3⟩], [], [], ⟨5, 6, 7⟩, ⟨1, 0, 0, 0⟩, ⟨1, 1, 1⟩⟩] : List PrintObj).map
        fun o => o.geometry.map fun v =>
          (localAff o).apply v := by
  exact getAllGeometry_bakes ⟨⟨1, 0, 0, 0, 0, 1, 0, -1, 0⟩, ⟨-150, -150, 0⟩⟩
    [⟨[⟨1, 2, 3⟩], [], [], ⟨5, 6, 7⟩, ⟨1, 0, 0, 0⟩, ⟨1, 1, 1⟩⟩]
    (by norm_num [Mat3.det])

/-!
Helper lemmas: assembling the lay-flat orientation facts.
-/

lemma Quat.normSq_conj (q : Quat) : q.conj.normSq = q.normSq := by
  simp only [Quat.conj, Quat.normSq]
  ring

lemma Vec3.smul_zero_add (a b : Vec3) : (Vec3.smul 0 a).add b = b := by
  simp only [Vec3.smul, Vec3.add]
  ext <;> ring

lemma Vec3.smul_smul (c d : ℚ) (v : Vec3) :
    Vec3.smul c (Vec3.smul d v) = Vec3.smul (c * d) v := by
  simp only [Vec3.smul]
  ext <;> ring

lemma downVector_normSq : downVector.normSq = 1 := by
  norm_num [downVector, Vec3.normSq, Vec3.dot]

/-- Core of the lay-flat orientation argument for a unit world quaternion
`q` and unit chosen normal `n` away from the degenerate antipodal case:
the local-frame right-multiplication equals the world-frame
left-multiplication of the shortest arc, the updated orientation carries
`n` onto the down direction (scaled by the squared norm of the
unnormalized quaternion), and that scale factor is positive. -/
lemma layflat_core (q : Quat) (n : Vec3) (hW : q.normSq = 1) (hn : n.normSq = 1)
    (hbr : 0 < 1 + n.dot (downVector.applyQuaternion q.conj)) :
    q.mul (setFromUnitVectorsRaw n (downVector.applyQuaternion q.conj)) =
      (setFromUnitVectorsRaw (n.applyQuaternion q) downVector).mul q ∧
    n.applyQuaternion (q.mul (setFromUnitVectorsRaw n (downVector.applyQuaternion q.conj))) =
      Vec3.smul ((q.mul (setFromUnitVectorsRaw n (downVector.applyQuaternion q.conj))).normSq)
        downVector ∧
    0 < (q.mul (setFromUnitVectorsRaw n (downVector.applyQuaternion q.conj))).normSq := by
  have hht : ¬ (1 + n.dot (downVector.applyQuaternion q.conj) ≤ 0) := not_le.mpr hbr
  have harc : setFromUnitVectorsRaw n (downVector.applyQuaternion q.conj) =
      arcGen n (downVector.applyQuaternion q.conj) := by
    rw [setFromUnitVectorsRaw, if_neg hht]
  have hshift : (n.applyQuaternion q).dot downVector =
      n.dot (downVector.applyQuaternion q.conj) :=
    (Vec3.dot_applyQuaternion_shift q n downVector).symm
  have harc2 : setFromUnitVectorsRaw (n.applyQuaternion q) downVector =
      arcGen (n.applyQuaternion q) downVector := by
    rw [setFromUnitVectorsRaw, if_neg]
    rw [hshift]
    exact hht
  have hdLnorm : (downVector.applyQuaternion q.conj).normSq = 1 := by
    rw [Vec3.normSq_applyQuaternion, Quat.normSq_conj, hW, downVector_normSq]
    norm_num
  have hnormSq : (q.mul (setFromUnitVectorsRaw n (downVector.applyQuaternion q.conj))).normSq =
      2 * (1 + n.dot (downVector.applyQuaternion q.conj)) := by
    rw [harc, Quat.normSq_mul, hW, one_mul, arcGen_normSq, hn, hdLnorm]
    ring
  refine ⟨?_, ?_, ?_⟩
  · rw [harc, harc2]
    exact arcGen_conj q n downVector
  · rw [hnormSq, harc, Vec3.applyQuaternion_mul, arcGen_apply n _, hn, hdLnorm]
    have h0 : (1 : ℚ) - 1 * 1 = 0 := by norm_num
    have h1 : 2 * (1 + n.dot (downVector.applyQuaternion q.conj)) * 1 =
        2 * (1 + n.dot (downVector.applyQuaternion q.conj)) := by ring
    rw [h0, h1, Vec3.smul_zero_add, Vec3.applyQuaternion_smul,
      Vec3.applyQuaternion_conj_cancel, hW, Vec3.smul_smul]
    norm_num
  · rw [hnormSq]
    linarith

/-- C2: the orientation update `layObjectFlat` applies — post-multiplying
`obj.quaternion` by the shortest-arc rotation from the chosen local
normal to the inverse-rotated down vector — yields exactly the
orientation the spec describes: the minimal rotation carrying the chosen
face's world normal to world down, pre-multiplied onto the object's
existing world orientation.  Equivalently, the chosen normal carried
through the updated world orientation points along world down (up to the
positive factor contributed by the unnormalized arc quaternion; the
library's normalization removes that factor without changing the
rotation). -/
theorem layObjectFlat_orientation (qBed : Quat) (o : PrintObj) (n : Vec3)
    (hBed : qBed.normSq = 1) (hq : o.quaternion.normSq = 1) (hn : n.normSq = 1)
    (hbr : 0 < 1 + n.dot (layFlatLocalDown (qBed.mul o.quaternion))) :
    qBed.mul (layFlatCodeUpdate qBed o n) =
      layFlatSpecWorldOrientation (qBed.mul o.quaternion) n ∧
    n.applyQuaternion (qBed.mul (layFlatCodeUpdate qBed o n)) =
      Vec3.smul ((qBed.mul (layFlatCodeUpdate qBed o n)).normSq) downVector ∧
    0 < (qBed.mul (layFlatCodeUpdate qBed o n)).normSq := by
  have hW : (qBed.mul o.quaternion).normSq = 1 := by
    rw [Quat.normSq_mul, hBed, hq, one_mul]
  have hbr2 : 0 < 1 + n.dot (downVector.applyQuaternion (qBed.mul o.quaternion).conj) := by
    rw [layFlatLocalDown] at hbr
    exact hbr
  have hcode : qBed.mul (layFlatCodeUpdate qBed o n) =
      (qBed.mul o.quaternion).mul
        (setFromUnitVectorsRaw n (downVector.applyQuaternion (qBed.mul o.quaternion).conj)) := by
    rw [layFlatCodeUpdate, layFlatRotation, layFlatLocalDown, Quat.mul_assoc]
  obtain ⟨h1, h2, h3⟩ := layflat_core (qBed.mul o.quaternion) n hW hn hbr2
  refine ⟨?_, ?_, ?_⟩
  · rw [hcode, layFlatSpecWorldOrientation]
    exact h1
  · rw [hcode]
    exact h2
  · rw [hcode]
    exact h3

/-- Witness for C2: bed frame rotated by the real viewport rotation (90°
about X as a unit quaternion with rational components is not available,
so a unit quaternion with components 3/5 and 4/5 is used), object rotated
by a rational unit quaternion, chosen normal the unit X vector. -/
theorem layObjectFlat_orientation_witness :
    (Quat.mul ⟨3/5, 4/5, 0, 0⟩ (layFlatCodeUpdate ⟨3/5, 4/5, 0, 0⟩
        ⟨[], [], [], ⟨0, 0, 0⟩, ⟨0, 0, 0, 1⟩, ⟨1, 1, 1⟩⟩ ⟨1, 0, 0⟩) =
      layFlatSpecWorldOrientation
        (Quat.mul ⟨3/5, 4/5, 0, 0⟩ (⟨0, 0, 0, 1⟩ : Quat)) ⟨1, 0, 0⟩) ∧
    ((⟨1, 0, 0⟩ : Vec3).applyQuaternion (Quat.mul ⟨3/5, 4/5, 0, 0⟩
        (layFlatCodeUpdate ⟨3/5, 4/5, 0, 0⟩
          ⟨[], [], [], ⟨0, 0, 0⟩, ⟨0, 0, 0, 1⟩, ⟨1, 1, 1⟩⟩ ⟨1, 0, 0⟩)) =
      Vec3.smul ((Quat.mul ⟨3/5, 4/5, 0, 0⟩ (layFlatCodeUpdate ⟨3/5, 4/5, 0, 0⟩
          ⟨[], [], [], ⟨0, 0, 0⟩, ⟨0, 0, 0, 1⟩, ⟨1, 1, 1⟩⟩ ⟨1, 0, 0⟩)).normSq)
        downVector) ∧
    0 < (Quat.mul ⟨3/5, 4/5, 0, 0⟩ (layFlatCodeUpdate ⟨3/5, 4/5, 0, 0⟩
        ⟨[], [], [], ⟨0, 0, 0⟩, ⟨0, 0, 0, 1⟩, ⟨1, 1, 1⟩⟩ ⟨1, 0, 0⟩)).normSq := by
  exact layObjectFlat_orientation ⟨3/5, 4/5, 0, 0⟩
    ⟨[], [], [], ⟨0, 0, 0⟩, ⟨0, 0, 0, 1⟩, ⟨1, 1, 1⟩⟩ ⟨1, 0, 0⟩
    (by norm_num [Quat.normSq])
    (by norm_num [Quat.normSq])
    (by norm_num [Vec3.normSq, Vec3.dot])
    (by norm_num [layFlatLocalDown, downVector, Quat.mul, Quat.conj,
      Vec3.applyQuaternion, Vec3.toQuat, Quat.vec, Vec3.dot])

/-- Global antitonicity of `arccos` under the rational-to-real coercion:
a larger dot product never has a larger `acos` angle. -/
lemma arccos_cast_antitone (a b : ℚ) (hab : a ≤ b) :
    Real.arccos (b : ℝ) ≤ Real.arccos (a : ℝ) := by
  have hr : (a : ℝ) ≤ (b : ℝ) := by exact_mod_cast hab
  have hm := Real.monotone_arcsin hr
  simp only [Real.arccos]
  linarith

/-- Strict antitonicity of `arccos` on dot products lying in `[-1, 1]`. -/
lemma arccos_cast_strict_anti (a b : ℚ) (ha1 : -1 ≤ a) (ha2 : a ≤ 1)
    (hb1 : -1 ≤ b) (hb2 : b ≤ 1) (hab : a < b) :
    Real.arccos (b : ℝ) < Real.arccos (a : ℝ) := by
  apply Real.strictAntiOn_arccos
  · exact Set.mem_Icc.mpr ⟨by exact_mod_cast ha1, by exact_mod_cast ha2⟩
  · exact Set.mem_Icc.mpr ⟨by exact_mod_cast hb1, by exact_mod_cast hb2⟩
  · exact_mod_cast hab

/-- C4: with `lp` the current lowest hull vertex, `layObjectFlat`'s
candidate set is exactly the hull faces incident to `lp`'s index — a face
enters the candidate list if and only if that index is one of its three
corners — and the selected candidate is one whose world-rotated normal
has the smallest `acos`-angle to the world down vector, with ties broken
by enumeration order: every earlier candidate has a strictly larger
angle. -/
theorem layObjectFlat_candidate_selection (bed : Aff) (qW : Quat) (o : PrintObj)
    (lp : LowPoint) (_hlp : findLowestPoint bed o = some lp)
    (hcne : layFlatCandidates qW lp.index o.hullFaces ≠ [])
    (hdots : ∀ c ∈ layFlatCandidates qW lp.index o.hullFaces,
      -1 ≤ c.dotDown ∧ c.dotDown ≤ 1) :
    (∀ f ∈ o.hullFaces,
      (faceTouchesPivot lp.index f = true ↔
        (lp.index = f.a ∨ lp.index = f.b ∨ lp.index = f.c))) ∧
    ∃ sel, selectCandidate (layFlatCandidates qW lp.index o.hullFaces) = some sel ∧
      sel ∈ layFlatCandidates qW lp.index o.hullFaces ∧
      (∀ c ∈ layFlatCandidates qW lp.index o.hullFaces,
        Real.arccos (sel.dotDown : ℝ) ≤ Real.arccos (c.dotDown : ℝ)) ∧
      ∃ k, ∃ hk : k < (layFlatCandidates qW lp.index o.hullFaces).length,
        (layFlatCandidates qW lp.index o.hullFaces).get ⟨k, hk⟩ = sel ∧
        ∀ j, (hj : j < (layFlatCandidates qW lp.index o.hullFaces).length) → j < k →
          Real.arccos (sel.dotDown : ℝ) <
            Real.arccos
              (((layFlatCandidates qW lp.index o.hullFaces).get ⟨j, hj⟩).dotDown : ℝ) := by
  constructor
  · intro f hf
    simp only [faceTouchesPivot, Bool.or_eq_true, beq_iff_eq]
    tauto
  · generalize hC : layFlatCandidates qW lp.index o.hullFaces = cands at hcne hdots
    cases cands with
    | nil => exact absurd rfl hcne
    | cons c cs =>
      have hsel : selectCandidate (c :: cs) = some (selGo c cs) := rfl
      have hmem : selGo c cs ∈ c :: cs := by
        rcases selGo_loc cs c with h | ⟨j, hj, heq, _, _⟩
        · rw [h]
          exact List.mem_cons_self c cs
        · rw [heq]
          exact List.mem_cons_of_mem c (List.get_mem cs j hj)
      have hdom : ∀ d ∈ c :: cs, d.dotDown ≤ (selGo c cs).dotDown := by
        intro d hd
        rcases List.mem_iff_get.mp hd with ⟨⟨j, hj⟩, hget⟩
        cases j with
        | zero =>
          have : d = c := by simpa using hget.symm
          rw [this]
          exact selGo_ge_init cs c
        | succ j =>
          have : d = cs.get ⟨j, by simpa using hj⟩ := by
            simpa [List.get] using hget.symm
          rw [this]
          exact selGo_ge_mem cs c j _
      refine ⟨selGo c cs, hsel, hmem, ?_, ?_⟩
      · intro d hd
        exact arccos_cast_antitone _ _ (hdom d hd)
      · rcases selGo_loc cs c with h | ⟨j, hj, heq, hlt, hfirst⟩
        · refine ⟨0, by simp, by simpa using h.symm, ?_⟩
          intro j hjlen hj0
          omega
        · refine ⟨j + 1, by simpa using hj, ?_, ?_⟩
          · simpa [List.get] using heq.symm
          · intro j' hjlen hjlt
            have hselmem := hdots _ hmem
            cases j' with
            | zero =>
              have hcmem := hdots c (List.mem_cons_self c cs)
              simp only [List.get]
              exact arccos_cast_strict_anti c.dotDown (selGo c cs).dotDown
                hcmem.1 hcmem.2 hselmem.1 hselmem.2 hlt
            | succ j' =>
              have hj'lt : j' < j := by omega
              have hj'len : j' < cs.length := by simpa using hjlen
              have hgmem := hdots (cs.get ⟨j', hj'len⟩)
                (List.mem_cons_of_mem c (List.get_mem cs j' hj'len))
              simp only [List.get]
              exact arccos_cast_strict_anti (cs.get ⟨j', hj'len⟩).dotDown
                (selGo c cs).dotDown hgmem.1 hgmem.2 hselmem.1 hselmem.2
                (hfirst j' hj'len hj'lt)

/-- Witness for C4: the hull's lowest vertex has index 1; both faces of
the object touch it, the first face's world normal points straight down
(dot 1 with the down vector, angle 0) and the second straight up
(dot -1, angle pi); the selection returns the first face, at candidate
index 0. -/
theorem layObjectFlat_candidate_selection_witness :
    (∀ f ∈ ([⟨0, 1, 2, ⟨0, -1, 0⟩⟩, ⟨1, 2, 0, ⟨0, 1, 0⟩⟩] : List Face3),
      (faceTouchesPivot 1 f = true ↔ (1 = f.a ∨ 1 = f.b ∨ 1 = f.c))) ∧
    ∃ sel, selectCandidate (layFlatCandidates ⟨1, 0, 0, 0⟩ 1
        ([⟨0, 1, 2, ⟨0, -1, 0⟩⟩, ⟨1, 2, 0, ⟨0, 1, 0⟩⟩] : List Face3)) = some sel ∧
      sel ∈ layFlatCandidates ⟨1, 0, 0, 0⟩ 1
        ([⟨0, 1, 2, ⟨0, -1, 0⟩⟩, ⟨1, 2, 0, ⟨0, 1, 0⟩⟩] : List Face3) ∧
      (∀ c ∈ layFlatCandidates ⟨1, 0, 0, 0⟩ 1
          ([⟨0, 1, 2, ⟨0, -1, 0⟩⟩, ⟨1, 2, 0, ⟨0, 1, 0⟩⟩] : List Face3),
        Real.arccos (sel.dotDown : ℝ) ≤ Real.arccos (c.dotDown : ℝ)) ∧
      ∃ k, ∃ hk : k < (layFlatCandidates ⟨1, 0, 0, 0⟩ 1
          ([⟨0, 1, 2, ⟨0, -1, 0⟩⟩, ⟨1, 2, 0, ⟨0, 1, 0⟩⟩] : List Face3)).length,
        (layFlatCandidates ⟨1, 0, 0, 0⟩ 1
          ([⟨0, 1, 2, ⟨0, -1, 0⟩⟩, ⟨1, 2, 0, ⟨0, 1, 0⟩⟩] : List Face3)).get ⟨k, hk⟩ = sel ∧
        ∀ j, (hj : j < (layFlatCandidates ⟨1, 0, 0, 0⟩ 1
            ([⟨0, 1, 2, ⟨0, -1, 0⟩⟩, ⟨1, 2, 0, ⟨0, 1, 0⟩⟩] : List Face3)).length) → j < k →
          Real.arccos (sel.dotDown : ℝ) <
            Real.arccos (((layFlatCandidates ⟨1, 0, 0, 0⟩ 1
              ([⟨0, 1, 2, ⟨0, -1, 0⟩⟩, ⟨1, 2, 0, ⟨0, 1, 0⟩⟩] : List Face3)).get
                ⟨j, hj⟩).dotDown : ℝ) := by
  exact layObjectFlat_candidate_selection
    ⟨⟨1, 0, 0, 0, 1, 0, 0, 0, 1⟩, ⟨0, 0, 0⟩⟩ ⟨1, 0, 0, 0⟩
    ⟨[], [⟨0, 0, 2⟩, ⟨0, 0, 0⟩],
      [⟨0, 1, 2, ⟨0, -1, 0⟩⟩, ⟨1, 2, 0, ⟨0, 1, 0⟩⟩], ⟨0, 0, 0⟩, ⟨1, 0, 0, 0⟩, ⟨1, 1, 1⟩⟩
    ⟨1, ⟨0, 0, 0⟩, 0⟩
    (by norm_num [findLowestPoint, flpGo, bedZ, localToBed, localAff, composeMatrix,
      quatRotationMatrix, Mat3.scaleColumns, Aff.inv, Aff.comp, Aff.apply, Mat3.inv,
      Mat3.det, Mat3.mul, Mat3.mulVec, Vec3.add, Vec3.neg])
    (by simp [layFlatCandidates, faceTouchesPivot])
    (by norm_num [layFlatCandidates, faceTouchesPivot, Vec3.applyQuaternion, Quat.mul,
      Quat.conj, Vec3.toQuat, Quat.vec, Vec3.dot, downVector])

end Slicer

